import Mathlib

set_option linter.unusedSectionVars false

/-!
Shallow embedding of the `sorted_vec` crate (src/lib.rs): a vector-backed
sorted container `SortedVec<T>` for `T : Ord`, with bulk construction paths
(`FromIterator`, `From<Vec<T>>`, `From<BTreeSet<T>>`), read operations
(`len`, `is_empty`, `as_slice`, `Index<usize>`), iteration by value and by
reference, derived structural equality and derived encode/decode.

Rust `Vec<T>` is modelled as `List α`; the element type's `Ord` is modelled
by a `LinearOrder` instance; `v.sort()` (Rust's stable sort) is modelled by
`List.mergeSort`, which is stable; fallible indexed access (`Index` panics
out of bounds) is modelled with `Option`.
-/

namespace SortedVecSpec

/-- Rust `v.sort()`: the standard library's stable sort of a vector by the
comparison `le`, modelled by stable merge sort. -/
def rustSort {α : Type} (le : α → α → Bool) (v : List α) : List α :=
  v.mergeSort le

/-- The comparison `a <= b` of the element type's total order, as the Rust
`Ord`-based comparison passed to the sort. -/
def leb {α : Type} [LinearOrder α] (a b : α) : Bool := decide (a ≤ b)

/-- `SortedVec<T>` from src/lib.rs: a struct wrapping a single field `v : Vec<T>`. -/
structure SortedVec (α : Type) [LinearOrder α] where
  v : List α
deriving DecidableEq

/-- `BTreeSet<T>`: an ordered set structure whose in-order iteration yields
its elements, which are unique and strictly increasing (the structure's own
invariant). -/
structure BTreeSet (α : Type) [LinearOrder α] where
  elems : List α
  sorted_lt : elems.Chain' (fun a b => a < b)

variable {α : Type} [LinearOrder α]

/-- `Vec::from_iter(iter)`: materialize an iterable into a vector by pushing
each element in iteration order. -/
def vecFromIter (l : List α) : List α := l.foldl (fun acc x => acc ++ [x]) []

namespace SortedVec

/-- `SortedVec::new()`: construct a new, empty `SortedVec<T>`. -/
def new : SortedVec α := ⟨[]⟩

/-- `SortedVec::as_slice()`: the entire backing vector as a slice. -/
def as_slice (s : SortedVec α) : List α := s.v

/-- `SortedVec::len()`: the number of elements in the vector. -/
def len (s : SortedVec α) : Nat := s.v.length

/-- `SortedVec::is_empty()`: whether the vector contains no elements. -/
def is_empty (s : SortedVec α) : Bool := s.v.isEmpty

/-- `FromIterator::from_iter`: collect the iterable into a vector, sort it,
wrap it. -/
def from_iter (l : List α) : SortedVec α := ⟨rustSort leb (vecFromIter l)⟩

/-- `IntoIterator for SortedVec<T>`: consuming iteration, yielding the
backing vector's elements in order. -/
def into_iter (s : SortedVec α) : List α := s.v

/-- `IntoIterator for &SortedVec<T>`: iteration by reference. It yields the
backing vector's elements in order and leaves the container itself
untouched, which the embedding records by returning the container alongside
the yielded sequence. -/
def iter_ref (s : SortedVec α) : List α × SortedVec α := (s.v, s)

/-- `Index<usize>::index`: element at position `i`; out of bounds is a hard
fault (a panic in Rust), modelled as `none`. -/
def index (s : SortedVec α) (i : Nat) : Option α := s.v[i]?

/-- `From<Vec<T>>::from`: sort the vector in place and wrap it. -/
def fromVec (l : List α) : SortedVec α := ⟨rustSort leb l⟩

/-- `From<BTreeSet<T>>::from`: collect the set's in-order iteration into a
vector, sort it, wrap it. -/
def fromBTreeSet (t : BTreeSet α) : SortedVec α :=
  ⟨rustSort leb (vecFromIter t.elems)⟩

/-- Derived `RustcEncodable`: the struct encodes as exactly its backing
sequence. -/
def encode (s : SortedVec α) : List α := s.v

/-- Derived `RustcDecodable`: decoding reconstructs the backing sequence
verbatim, with no validation and no sort. -/
def decode (l : List α) : SortedVec α := ⟨l⟩

end SortedVec

/-- The spec's adjacent-pairs formulation of sortedness: for all adjacent
positions `i`, `i+1` within bounds, `element[i] ≤ element[i+1]`. -/
def adjSorted (l : List α) : Prop :=
  ∀ (i : Nat) (a b : α), l[i]? = some a → l[i + 1]? = some b → a ≤ b

theorem vecFromIter_eq (l : List α) : vecFromIter l = l := by
  suffices h : ∀ acc : List α, l.foldl (fun acc x => acc ++ [x]) acc = acc ++ l by
    simpa using h []
  induction l with
  | nil => intro acc; simp
  | cons a t ih => intro acc; simp [List.foldl_cons, ih]

theorem leb_trans (a b c : α) (h1 : leb a b) (h2 : leb b c) : leb a c = true := by
  simp only [leb, decide_eq_true_eq] at *
  exact le_trans h1 h2

theorem leb_total (a b : α) : leb a b || leb b a := by
  simp only [leb, Bool.or_eq_true, decide_eq_true_eq]
  exact le_total a b

/-- The result of the modelled Rust sort is sorted by `≤`. -/
theorem rustSort_sorted (l : List α) : (rustSort leb l).Sorted (· ≤ ·) := by
  have h := List.sorted_mergeSort leb_trans leb_total l
  exact h.imp (fun hab => by simpa [leb] using hab)

/-- The result of the modelled Rust sort is a permutation of its input. -/
theorem rustSort_perm (l : List α) : (rustSort (α := α) leb l).Perm l :=
  List.mergeSort_perm l leb

theorem adjSorted_of_sorted {l : List α} (h : l.Sorted (· ≤ ·)) : adjSorted l := by
  intro i a b ha hb
  obtain ⟨hi, rfl⟩ := List.getElem?_eq_some_iff.mp ha
  obtain ⟨hj, rfl⟩ := List.getElem?_eq_some_iff.mp hb
  simpa using List.pairwise_iff_get.mp h ⟨i, hi⟩ ⟨i + 1, hj⟩ (by simp [Fin.lt_def])

theorem from_iter_v_eq (l : List α) :
    (SortedVec.from_iter l).v = rustSort leb l := by
  simp [SortedVec.from_iter, vecFromIter_eq]

theorem from_iter_v_sorted (l : List α) :
    (SortedVec.from_iter l).v.Sorted (· ≤ ·) := by
  rw [from_iter_v_eq]; exact rustSort_sorted l

theorem from_iter_v_perm (l : List α) : (SortedVec.from_iter l).v.Perm l := by
  rw [from_iter_v_eq]; exact rustSort_perm l

theorem vec_ext {s t : SortedVec α} (h : s.v = t.v) : s = t := by
  cases s; cases t; simpa using h

theorem chain_246 : List.Chain' (fun a b : Int => a < b) [2, 4, 6] := by
  norm_num [List.chain'_cons]

/-- C1: every construction path (`new`, `from_iter`, `From<Vec<T>>`,
`From<BTreeSet<T>>`) yields a backing sequence sorted in non-decreasing
order: for all adjacent in-bounds positions `i`, `i+1`,
`element[i] ≤ element[i+1]`. -/
theorem claim_C1_construction_sorted (l : List α) (t : BTreeSet α) :
    adjSorted (SortedVec.new : SortedVec α).v ∧
    adjSorted (SortedVec.from_iter l).v ∧
    adjSorted (SortedVec.fromVec l).v ∧
    adjSorted (SortedVec.fromBTreeSet t).v := by
  refine ⟨?_, ?_, ?_, ?_⟩
  · intro i a b ha _
    simp [SortedVec.new] at ha
  · exact adjSorted_of_sorted (from_iter_v_sorted l)
  · exact adjSorted_of_sorted (rustSort_sorted l)
  · exact adjSorted_of_sorted (rustSort_sorted (vecFromIter t.elems))

/-- C2: `from_iter` preserves content: the constructed container's iterated
elements are a permutation of the input — the same multiset, with the same
multiplicity for every element. -/
theorem claim_C2_from_iter_perm (l : List α) :
    (SortedVec.from_iter l).into_iter.Perm l ∧
    ∀ a : α, (SortedVec.from_iter l).into_iter.count a = l.count a := by
  refine ⟨from_iter_v_perm l, fun a => (from_iter_v_perm l).count_eq a⟩

/-- C3: for a container of length `N`, indexed access at any `i ≥ N` is a
hard fault (`none`), and when `N > 0`, indexed access at `N - 1` succeeds
and returns the maximum element. -/
theorem claim_C3_index_bounds (s : SortedVec α) (hs : s.v.Sorted (· ≤ ·)) :
    (∀ i : Nat, s.len ≤ i → s.index i = none) ∧
    (0 < s.len →
      ∃ a, s.index (s.len - 1) = some a ∧ a ∈ s.v ∧ ∀ b ∈ s.v, b ≤ a) := by
  constructor
  · intro i hi
    exact List.getElem?_eq_none hi
  · intro hpos
    have hlt : s.len - 1 < s.v.length := by
      simp only [SortedVec.len] at *
      omega
    refine ⟨s.v[s.len - 1], ?_, List.getElem_mem hlt, ?_⟩
    · simp [SortedVec.index, List.getElem?_eq_getElem hlt]
    · intro b hb
      obtain ⟨j, hj, rfl⟩ := List.mem_iff_getElem.mp hb
      have hle : (⟨j, hj⟩ : Fin s.v.length) ≤ ⟨s.len - 1, hlt⟩ := by
        simp only [Fin.mk_le_mk, SortedVec.len] at *
        omega
      simpa using hs.rel_get_of_le hle

/-- C4: conversion `From<Vec<T>>` produces the same container as
`FromIterator::from_iter` over the same elements. -/
theorem claim_C4_fromVec_eq_from_iter (l : List α) :
    SortedVec.fromVec l = SortedVec.from_iter l := by
  apply vec_ext
  rw [from_iter_v_eq]
  rfl

/-- C5: equality is structural: containers built via `from_iter` from
permutations of the same multiset are equal; containers whose sequences
differ at some position are unequal. -/
theorem claim_C5_structural_eq (l1 l2 : List α) :
    (l1.Perm l2 → SortedVec.from_iter l1 = SortedVec.from_iter l2) ∧
    (∀ (i : Nat) (a b : α), (SortedVec.from_iter l1).index i = some a →
      (SortedVec.from_iter l2).index i = some b → a ≠ b →
      SortedVec.from_iter l1 ≠ SortedVec.from_iter l2) := by
  constructor
  · intro hperm
    apply vec_ext
    apply List.eq_of_perm_of_sorted _ (from_iter_v_sorted l1) (from_iter_v_sorted l2)
    exact ((from_iter_v_perm l1).trans hperm).trans (from_iter_v_perm l2).symm
  · intro i a b ha hb hne heq
    rw [heq] at ha
    rw [ha] at hb
    exact hne (Option.some.inj hb)

/-- C6: conversion from an ordered set (`BTreeSet<T>`, unique elements in
ascending order) yields exactly the set's element sequence with the same
length; in particular `{2, 4, 6}` yields `[2, 4, 6]` of length 3. -/
theorem claim_C6_fromBTreeSet (t : BTreeSet α)
    (tex : BTreeSet Int) (hex : tex.elems = [2, 4, 6]) :
    ((SortedVec.fromBTreeSet t).v = t.elems ∧
     (SortedVec.fromBTreeSet t).len = t.elems.length) ∧
    ((SortedVec.fromBTreeSet tex).v = [2, 4, 6] ∧
     (SortedVec.fromBTreeSet tex).len = 3) := by
  have key : ∀ {β : Type} [LinearOrder β] (u : BTreeSet β),
      (SortedVec.fromBTreeSet u).v = u.elems := by
    intro β _ u
    show rustSort leb (vecFromIter u.elems) = u.elems
    rw [vecFromIter_eq]
    apply List.mergeSort_of_sorted
    have hp : u.elems.Pairwise (fun a b => a < b) :=
      (List.chain'_iff_pairwise).mp u.sorted_lt
    exact hp.imp fun hab => by simp [leb, le_of_lt hab]
  refine ⟨⟨key t, ?_⟩, ⟨?_, ?_⟩⟩
  · simp [SortedVec.len, key t]
  · rw [key tex, hex]
  · simp [SortedVec.len, key tex, hex]

/-- C7: encoding produces exactly the backing sequence; decoding
reconstructs the encoded sequence verbatim with no sort and no validation
(even out-of-order payloads), so decode after encode is the identity. -/
theorem claim_C7_encode_decode :
    (∀ s : SortedVec α, s.encode = s.v) ∧
    (∀ l : List α, (SortedVec.decode l).v = l) ∧
    (∀ s : SortedVec α, SortedVec.decode s.encode = s) ∧
    (SortedVec.decode [(3 : Int), 1, 2]).v = [3, 1, 2] :=
  ⟨fun _ => rfl, fun _ => rfl, fun _ => rfl, rfl⟩

/-- C8: iterating by reference does not consume or modify the container,
and doing it twice yields the same sequence, in ascending order, both
times. -/
theorem claim_C8_iter_ref_frame (s : SortedVec α) (hs : s.v.Sorted (· ≤ ·)) :
    s.iter_ref.2 = s ∧
    s.iter_ref.2.iter_ref.1 = s.iter_ref.1 ∧
    s.iter_ref.1.Sorted (· ≤ ·) ∧
    s.iter_ref.2.iter_ref.1.Sorted (· ≤ ·) :=
  ⟨rfl, rfl, hs, hs⟩

/-- C9: the container returned by `new()` has length 0, `is_empty` returns
`true`, iteration (by value and by reference) yields no elements, and
indexed access at position 0 faults. -/
theorem claim_C9_new_empty :
    (SortedVec.new : SortedVec α).len = 0 ∧
    (SortedVec.new : SortedVec α).is_empty = true ∧
    (SortedVec.new : SortedVec α).into_iter = [] ∧
    (SortedVec.new : SortedVec α).iter_ref.1 = [] ∧
    (SortedVec.new : SortedVec α).index 0 = none :=
  ⟨rfl, rfl, rfl, rfl, rfl⟩

/-- C10: the sort used by `from_iter` and `From<Vec<T>>` (`rustSort`, Rust's
stable `v.sort()`) is stable: distinct elements that compare equal under
the order keep their relative input order in the output. -/
theorem claim_C10_stable_sort {β : Type} (le : β → β → Bool)
    (htrans : ∀ a b c, le a b → le b c → le a c)
    (htotal : ∀ a b, le a b || le b a)
    (a b : β) (l : List β)
    (_hne : a ≠ b) (hab : le a b = true) (_hba : le b a = true)
    (h : [a, b].Sublist l) : [a, b].Sublist (rustSort le l) :=
  List.pair_sublist_mergeSort htrans htotal hab h

theorem claim_C1_witness :
    adjSorted (SortedVec.new : SortedVec Int).v ∧
    adjSorted (SortedVec.from_iter [(3 : Int), 1, 2]).v ∧
    adjSorted (SortedVec.fromVec [(3 : Int), 1, 2]).v ∧
    adjSorted (SortedVec.fromBTreeSet (⟨[2, 4, 6], chain_246⟩ : BTreeSet Int)).v :=
  claim_C1_construction_sorted [(3 : Int), 1, 2] ⟨[2, 4, 6], chain_246⟩

theorem claim_C3_witness :
    (⟨[(1 : Int), 2, 3]⟩ : SortedVec Int).index 5 = none ∧
    (∃ a, (⟨[(1 : Int), 2, 3]⟩ : SortedVec Int).index
        ((⟨[(1 : Int), 2, 3]⟩ : SortedVec Int).len - 1) = some a ∧
      a ∈ (⟨[(1 : Int), 2, 3]⟩ : SortedVec Int).v ∧
      ∀ b ∈ (⟨[(1 : Int), 2, 3]⟩ : SortedVec Int).v, b ≤ a) :=
  ⟨(claim_C3_index_bounds ⟨[(1 : Int), 2, 3]⟩ (by decide)).1 5 (by decide),
   (claim_C3_index_bounds ⟨[(1 : Int), 2, 3]⟩ (by decide)).2 (by decide)⟩

unseal List.merge List.mergeSort in
theorem claim_C5_witness :
    SortedVec.from_iter [(2 : Int), 1] = SortedVec.from_iter [1, 2] ∧
    SortedVec.from_iter [(1 : Int), 2] ≠ SortedVec.from_iter [1, 3] :=
  ⟨(claim_C5_structural_eq [(2 : Int), 1] [1, 2]).1 (by decide),
   (claim_C5_structural_eq [(1 : Int), 2] [1, 3]).2 1 2 3
     (by decide) (by decide) (by decide)⟩

theorem claim_C6_witness :
    (SortedVec.fromBTreeSet (⟨[2, 4, 6], chain_246⟩ : BTreeSet Int)).v = [2, 4, 6] ∧
    (SortedVec.fromBTreeSet (⟨[2, 4, 6], chain_246⟩ : BTreeSet Int)).len = 3 :=
  (claim_C6_fromBTreeSet (⟨[2, 4, 6], chain_246⟩ : BTreeSet Int)
    (⟨[2, 4, 6], chain_246⟩ : BTreeSet Int) rfl).2

theorem claim_C8_witness :
    (⟨[(1 : Int), 2]⟩ : SortedVec Int).iter_ref.2 = ⟨[(1 : Int), 2]⟩ ∧
    (⟨[(1 : Int), 2]⟩ : SortedVec Int).iter_ref.2.iter_ref.1 =
      (⟨[(1 : Int), 2]⟩ : SortedVec Int).iter_ref.1 ∧
    (⟨[(1 : Int), 2]⟩ : SortedVec Int).iter_ref.1.Sorted (· ≤ ·) ∧
    (⟨[(1 : Int), 2]⟩ : SortedVec Int).iter_ref.2.iter_ref.1.Sorted (· ≤ ·) :=
  claim_C8_iter_ref_frame ⟨[(1 : Int), 2]⟩ (by decide)

unseal List.merge List.mergeSort in
theorem claim_C10_witness :
    [((1 : Nat), (0 : Nat)), ((1 : Nat), (1 : Nat))].Sublist
      (rustSort (fun x y : Nat × Nat => decide (x.1 ≤ y.1)) [(1, 0), (5, 0), (1, 1)]) :=
  claim_C10_stable_sort (fun x y : Nat × Nat => decide (x.1 ≤ y.1))
    (fun a b c h1 h2 => by
      simp only [decide_eq_true_eq] at *
      omega)
    (fun a b => by
      rcases Nat.le_total a.1 b.1 with h | h <;> simp [h])
    (1, 0) (1, 1) [(1, 0), (5, 0), (1, 1)]
    (by decide) (by decide) (by decide) (by decide)

end SortedVecSpec
